import Mathlib

/-!
Verification of the word-search board generator
(`src/generateWordsOnBoard.js`) against its specification.

Shallow embedding notes:
* JS numbers appearing as board dimensions are modelled as `Int`
  (validation only checks `typeof === 'number'`, so zero and negative
  values flow through; non-integer numbers are out of scope of the
  claims).  A possibly-absent / non-numeric property is `Option Int`.
* The board is a total function `Nat → Nat → Option Char`; an empty JS
  cell `''` is `none`.  All reads and writes performed by the engine use
  enumerator-produced coordinates, which are proved in-bounds.
* `Math.random()` is modelled by an oracle stream `g : Nat → Nat`
  together with a counter that is threaded through the computation in
  JS evaluation order; a draw at counter `k` yields `g k`.  The
  `scatter` shuffle (`sort` with a random comparator) is modelled as an
  oracle-selected permutation of the word.
* `placeWordOnBoard`'s result record carries a ghost field `committed`
  recording which placement was written on success; the JS value only
  carries `success`/`reason`, and `committed` is pure instrumentation
  (it is read by no definition of the engine).
-/

namespace WordSearch

/-- A board coordinate, `row`/`col` as produced by the JS generators
(always non-negative there). -/
structure Pos where
  row : Nat
  col : Nat
deriving DecidableEq

/-- Dimensions of a rectangular block (`getValidBlockDimensions`). -/
structure BlockDim where
  width : Nat
  height : Nat
deriving DecidableEq

/-- A candidate placement: shape tag, ordered positions, optional block
dimensions — mirrors the JS object `{type, positions, blockDimensions?}`. -/
structure Placement where
  type : String
  positions : List Pos
  blockDimensions : Option BlockDim := none
deriving DecidableEq

instance : Inhabited Placement := ⟨⟨"", [], none⟩⟩

/-- The four direction modes of the alignment configuration. -/
inductive Direction where
  | forward
  | backward
  | forwardBackward
  | scatter
deriving DecidableEq

/-- The six boolean shape toggles `alignment.lines`. -/
structure ShapeFlags where
  horizontal : Bool
  vertical : Bool
  diagonal : Bool
  bendsStraight : Bool
  bendsDiagonal : Bool
  block : Bool
deriving DecidableEq

/-- `alignment` argument: shape flags plus direction mode. -/
structure Alignment where
  lines : ShapeFlags
  direction : Direction
deriving DecidableEq

/-- The raw `boardSize` argument before validation: each property is
`some n` when it is a JS number, `none` when missing or non-numeric. -/
structure BoardSizeJs where
  width : Option Int
  height : Option Int
deriving DecidableEq

/-- A `boardSize` whose properties passed the `typeof === 'number'`
check.  No positivity is implied. -/
structure BoardSize where
  width : Int
  height : Int
deriving DecidableEq

/-- The board: cell `(r, c)` is `none` when it holds the empty-string
sentinel, `some ch` when it holds letter `ch`. -/
def Board : Type := Nat → Nat → Option Char

/-- The counter positions of a JS loop `for (i = 0; i < n; i++)` with an
`Int` bound. -/
def natRange (n : Int) : List Nat := List.range n.toNat

/-- `createEmptyBoard`: every cell holds the empty sentinel. -/
def createEmptyBoard : Board := fun _ _ => none

/-- Functional update of one board cell (the JS `board[r][c] = letter`). -/
def writeCell (board : Board) (pos : Pos) (ch : Char) : Board :=
  fun r c => if r = pos.row ∧ c = pos.col then some ch else board r c

/-- `generateHorizontalPlacements`: one placement per row and per
starting column such that the word fits. -/
def generateHorizontalPlacements (word : List Char) (bs : BoardSize) :
    List Placement :=
  (natRange bs.height).flatMap fun row =>
    (List.range (bs.width - (word.length : Int) + 1).toNat).map fun col =>
      { type := "horizontal"
        positions := (List.range word.length).map fun i =>
          ⟨row, col + i⟩ }

/-- `generateVerticalPlacements`. -/
def generateVerticalPlacements (word : List Char) (bs : BoardSize) :
    List Placement :=
  (List.range (bs.height - (word.length : Int) + 1).toNat).flatMap fun row =>
    (natRange bs.width).map fun col =>
      { type := "vertical"
        positions := (List.range word.length).map fun i =>
          ⟨row + i, col⟩ }

/-- `generateDiagonalPlacements`: descending family then ascending
family (the ascending column counter starts at `word.length - 1` and
runs to `width - 1`). -/
def generateDiagonalPlacements (word : List Char) (bs : BoardSize) :
    List Placement :=
  ((List.range (bs.height - (word.length : Int) + 1).toNat).flatMap fun row =>
    (List.range (bs.width - (word.length : Int) + 1).toNat).map fun col =>
      ({ type := "diagonal-down"
         positions := (List.range word.length).map fun i =>
           ⟨row + i, col + i⟩ } : Placement)) ++
  ((List.range (bs.height - (word.length : Int) + 1).toNat).flatMap fun row =>
    (List.range' (word.length - 1) (bs.width + 1 - (word.length : Int)).toNat).map
      fun col =>
      ({ type := "diagonal-up"
         positions := (List.range word.length).map fun i =>
           ⟨row + i, col - i⟩ } : Placement))

/-- Positions of a horizontal-then-vertical bend: `bendPoint` cells to
the right from the start, then the remaining cells downward in the
column of the bend (from `generateBendStraightPlacements`). -/
def hvPositions (startRow startCol bendPoint wordLength : Nat) : List Pos :=
  ((List.range bendPoint).map fun i => ⟨startRow, startCol + i⟩) ++
  ((List.range' bendPoint (wordLength - bendPoint)).map fun i =>
    ⟨startRow + (i - bendPoint + 1), startCol + bendPoint - 1⟩)

/-- Positions of a vertical-then-horizontal bend. -/
def vhPositions (startRow startCol bendPoint wordLength : Nat) : List Pos :=
  ((List.range bendPoint).map fun i => ⟨startRow + i, startCol⟩) ++
  ((List.range' bendPoint (wordLength - bendPoint)).map fun i =>
    ⟨startRow + bendPoint - 1, startCol + (i - bendPoint + 1)⟩)

/-- `generateBendStraightPlacements`: for every start cell and bend
point, the horizontal-then-vertical orientation guarded by
`startCol + bendPoint < width && startRow + (length - bendPoint) < height`,
then the vertical-then-horizontal orientation guarded symmetrically. -/
def generateBendStraightPlacements (word : List Char) (bs : BoardSize) :
    List Placement :=
  (natRange bs.height).flatMap fun startRow =>
    (natRange bs.width).flatMap fun startCol =>
      (List.range' 1 (word.length - 1)).flatMap fun bendPoint =>
        (if ((startCol + bendPoint : Nat) : Int) < bs.width ∧
            ((startRow + (word.length - bendPoint) : Nat) : Int) < bs.height
         then [{ type := "bend-straight-hv"
                 positions := hvPositions startRow startCol bendPoint word.length }]
         else []) ++
        (if ((startRow + bendPoint : Nat) : Int) < bs.height ∧
            ((startCol + (word.length - bendPoint) : Nat) : Int) < bs.width
         then [{ type := "bend-straight-vh"
                 positions := vhPositions startRow startCol bendPoint word.length }]
         else [])

/-- `isValidDiagonalBend` — the "simplified validation" of the source:
it only checks that the start cell is on the board. -/
def isValidDiagonalBend (startRow startCol : Nat) (_bendPoint _wordLength : Nat)
    (bs : BoardSize) (_direction : String) : Bool :=
  decide (((startRow : Int) < bs.height) ∧ ((startCol : Int) < bs.width))

/-- `generateDiagonalBendPositions` — the "simplified implementation"
of the source: a single-cell position list. -/
def generateDiagonalBendPositions (startRow startCol : Nat)
    (_bendPoint _wordLength : Nat) (_direction : String) : List Pos :=
  [⟨startRow, startCol⟩]

/-- `isValidPosition`: the coordinate lies inside the board. -/
def isValidPosition (pos : Pos) (bs : BoardSize) : Bool :=
  decide (((pos.row : Int) < bs.height) ∧ ((pos.col : Int) < bs.width))

/-- `generateBendDiagonalPlacements`. -/
def generateBendDiagonalPlacements (word : List Char) (bs : BoardSize) :
    List Placement :=
  (natRange bs.height).flatMap fun startRow =>
    (natRange bs.width).flatMap fun startCol =>
      (List.range' 1 (word.length - 1)).flatMap fun bendPoint =>
        if isValidDiagonalBend startRow startCol bendPoint word.length bs "down-up"
        then
          let positions :=
            generateDiagonalBendPositions startRow startCol bendPoint word.length
              "down-up"
          if positions.all (isValidPosition · bs)
          then [{ type := "bend-diagonal-down-up", positions := positions }]
          else []
        else []

/-- `getValidBlockDimensions`: the fixed word-length → block-dimension
table, in the source's push order. -/
def getValidBlockDimensions (wordLength : Nat) : List BlockDim :=
  (if wordLength = 4 then [⟨2, 2⟩] else []) ++
  (if wordLength = 9 then [⟨3, 3⟩] else []) ++
  (if wordLength = 16 then [⟨4, 4⟩] else []) ++
  (if wordLength = 6 then [⟨2, 3⟩, ⟨3, 2⟩] else []) ++
  (if wordLength = 8 then [⟨2, 4⟩, ⟨4, 2⟩] else []) ++
  (if wordLength = 10 then [⟨2, 5⟩, ⟨5, 2⟩] else []) ++
  (if wordLength = 12 then [⟨2, 6⟩, ⟨6, 2⟩, ⟨3, 4⟩, ⟨4, 3⟩] else []) ++
  (if wordLength = 14 then [⟨2, 7⟩, ⟨7, 2⟩] else []) ++
  (if wordLength = 15 then [⟨3, 5⟩, ⟨5, 3⟩] else []) ++
  (if wordLength = 16 then [⟨2, 8⟩, ⟨8, 2⟩] else [])

/-- `generateBlockPositions`: the rectangle's cells in reading order,
truncated to the word length. -/
def generateBlockPositions (startRow startCol blockWidth blockHeight
    wordLength : Nat) : List Pos :=
  (((List.range blockHeight).flatMap fun row =>
    (List.range blockWidth).map fun col =>
      (⟨startRow + row, startCol + col⟩ : Pos))).take wordLength

/-- `generateBlockPlacements`. -/
def generateBlockPlacements (word : List Char) (bs : BoardSize) :
    List Placement :=
  (getValidBlockDimensions word.length).flatMap fun block =>
    (List.range (bs.height - (block.height : Int) + 1).toNat).flatMap
      fun startRow =>
      (List.range (bs.width - (block.width : Int) + 1).toNat).map fun startCol =>
        { type := "block"
          positions := generateBlockPositions startRow startCol block.width
            block.height word.length
          blockDimensions := some block }

/-- `generatePossiblePlacements`: concatenation over the enabled shape
flags in source order. -/
def generatePossiblePlacements (word : List Char) (alignment : Alignment)
    (bs : BoardSize) : List Placement :=
  (if alignment.lines.horizontal then generateHorizontalPlacements word bs
   else []) ++
  (if alignment.lines.vertical then generateVerticalPlacements word bs
   else []) ++
  (if alignment.lines.diagonal then generateDiagonalPlacements word bs
   else []) ++
  (if alignment.lines.bendsStraight then generateBendStraightPlacements word bs
   else []) ++
  (if alignment.lines.bendsDiagonal then generateBendDiagonalPlacements word bs
   else []) ++
  (if alignment.lines.block then generateBlockPlacements word bs else [])

/-- `getLetterForPosition`: the character the direction mode assigns to
`index`, threading the random counter.  `forward`/`backward` consume no
randomness; `forwardBackward` draws one coin per call; `scatter` draws
one oracle-selected permutation of the word per call. -/
def getLetterForPosition (word : List Char) (index : Nat) (dir : Direction)
    (g : Nat → Nat) (k : Nat) : Char × Nat :=
  match dir with
  | .forward => (word.getD index '?', k)
  | .backward => (word.getD (word.length - 1 - index) '?', k)
  | .forwardBackward =>
      (if g k % 2 = 0 then word.getD index '?'
       else word.getD (word.length - 1 - index) '?', k + 1)
  | .scatter =>
      (let shuffledWord :=
        word.permutations.getD (g k % word.permutations.length) word
      shuffledWord.getD index '?', k + 1)

/-- The loop body of `canPlaceWord` over the remaining positions, with
the running position index and random counter; returns as soon as a
non-empty cell disagrees with the expected letter. -/
def canPlaceAux (board : Board) (word : List Char) (dir : Direction)
    (g : Nat → Nat) : List Pos → Nat → Nat → Bool × Nat
  | [], _, k => (true, k)
  | pos :: rest, i, k =>
      let res := getLetterForPosition word i dir g k
      if board pos.row pos.col ≠ none ∧ board pos.row pos.col ≠ some res.1
      then (false, res.2)
      else canPlaceAux board word dir g rest (i + 1) res.2

/-- `canPlaceWord`: every position of the placement must be empty or
already hold the expected letter. -/
def canPlaceWord (board : Board) (word : List Char) (placement : Placement)
    (dir : Direction) (g : Nat → Nat) (k : Nat) : Bool × Nat :=
  canPlaceAux board word dir g placement.positions 0 k

/-- The loop body of `placeWord`: write the expected letter at each
position in order. -/
def placeWordAux (word : List Char) (dir : Direction) (g : Nat → Nat) :
    Board → List Pos → Nat → Nat → Board × Nat
  | board, [], _, k => (board, k)
  | board, pos :: rest, i, k =>
      let res := getLetterForPosition word i dir g k
      placeWordAux word dir g (writeCell board pos res.1) rest (i + 1) res.2

/-- `placeWord`: commit the word along the placement's positions. -/
def placeWord (board : Board) (word : List Char) (placement : Placement)
    (dir : Direction) (g : Nat → Nat) (k : Nat) : Board × Nat :=
  placeWordAux word dir g board placement.positions 0 k

/-- Result record of `placeWordOnBoard`; `committed` is ghost
instrumentation recording the placement written on success. -/
structure PlaceResult where
  success : Bool
  reason : Option String := none
  committed : Option Placement := none
deriving DecidableEq

/-- The `while (attempts < maxAttempts)` loop of `placeWordOnBoard`,
with `fuel` the number of attempts remaining.  Each iteration
regenerates the candidate list, draws a random candidate, checks it and
either commits or retries. -/
def placeAttempts (board : Board) (word : List Char) (alignment : Alignment)
    (bs : BoardSize) (g : Nat → Nat) :
    Nat → Nat → PlaceResult × Board × Nat
  | 0, k =>
      (⟨false, some "Could not find valid placement after maximum attempts",
        none⟩, board, k)
  | fuel + 1, k =>
      let placements := generatePossiblePlacements word alignment bs
      if placements.length = 0 then
        (⟨false, some "No valid placements found", none⟩, board, k)
      else
        let placement := placements.getD (g k % placements.length) default
        let chk := canPlaceWord board word placement alignment.direction g (k + 1)
        if chk.1 then
          let wr := placeWord board word placement alignment.direction g chk.2
          (⟨true, none, some placement⟩, wr.1, wr.2)
        else
          placeAttempts board word alignment bs g fuel chk.2

/-- `placeWordOnBoard`: up to 100 attempts. -/
def placeWordOnBoard (board : Board) (word : List Char)
    (alignment : Alignment) (bs : BoardSize) (g : Nat → Nat) (k : Nat) :
    PlaceResult × Board × Nat :=
  placeAttempts board word alignment bs g 100 k

/-- State after processing a list of words: the board, the random
counter, and a ghost log with one entry per word in input order (the JS
loop only emits a `console.warn` per failure). -/
structure RunResult where
  board : Board
  counter : Nat
  log : List (List Char × PlaceResult)

/-- The per-word loop of `generateWordsOnBoard`. -/
def processWords (alignment : Alignment) (bs : BoardSize) (g : Nat → Nat) :
    Board → List (List Char) → Nat → RunResult
  | board, [], k => ⟨board, k, []⟩
  | board, word :: rest, k =>
      let step := placeWordOnBoard board word alignment bs g k
      let restRun := processWords alignment bs g step.2.1 rest step.2.2
      ⟨restRun.board, restRun.counter, (word, step.1) :: restRun.log⟩

/-- The word lengths rejected by block-mode validation. -/
def invalidLengths : List Nat := [3, 5, 7, 11, 13]

/-- `validateInputs`: `boardSize` must have numeric width and height
(no positivity check); `words` being an array and `alignment` having a
`lines` object and a `direction` string hold by construction in this
typed model; block mode additionally rejects the first word whose
length is in `invalidLengths`. -/
def validateInputs (bs : BoardSizeJs) (words : List (List Char))
    (alignment : Alignment) : Except String Unit :=
  if bs.width = none ∨ bs.height = none then
    .error "boardSize must be an object with numeric width and height properties"
  else if alignment.lines.block ∧
      (words.find? (fun w => w.length ∈ invalidLengths)).isSome then
    .error "invalid length for block mode"
  else
    .ok ()

/-- `generateWordsOnBoard`: validate, create the empty board, process
every word, return the board.  A JS `throw` is `Except.error`.  The
final match arm is unreachable because validation already rejected a
non-numeric `boardSize`. -/
def generateWordsOnBoard (bs : BoardSizeJs) (words : List (List Char))
    (alignment : Alignment) (g : Nat → Nat) : Except String Board :=
  match validateInputs bs words alignment, bs.width, bs.height with
  | .error e, _, _ => .error e
  | .ok _, some w, some h =>
      .ok (processWords alignment ⟨w, h⟩ g createEmptyBoard words 0).board
  | .ok _, _, _ =>
      .error "boardSize must be an object with numeric width and height properties"

/-- The deterministic letter assignment used by the `forward` and
`backward` direction modes. -/
def letterForPure (word : List Char) (index : Nat) (dir : Direction) : Char :=
  match dir with
  | .backward => word.getD (word.length - 1 - index) '?'
  | _ => word.getD index '?'

/-- The word lengths having at least one entry in the block table. -/
def blockLengths : List Nat := [4, 6, 8, 9, 10, 12, 14, 15, 16]

/- ### Helper lemmas -/

lemma mem_natRange {n : Nat} {m : Int} : n ∈ natRange m ↔ (n : Int) < m := by
  simp only [natRange, List.mem_range]
  omega

lemma natRange_nodup {n : Int} : (natRange n).Nodup := List.nodup_range _

lemma flatMap_const_singleton {α β : Type} (l : List α) (f : α → β) :
    (l.flatMap fun a => [f a]) = l.map f := by
  induction l with
  | nil => rfl
  | cons a l ih => simp [List.flatMap_cons, ih]

lemma getValidBlockDimensions_eq_nil {L : Nat} (h : L ∉ blockLengths) :
    getValidBlockDimensions L = [] := by
  simp only [blockLengths, List.mem_cons, not_or, List.not_mem_nil] at h
  obtain ⟨h4, h6, h8, h9, h10, h12, h14, h15, h16, -⟩ := h
  unfold getValidBlockDimensions
  rw [if_neg h4, if_neg h9, if_neg h16, if_neg h6, if_neg h8, if_neg h10,
    if_neg h12, if_neg h14, if_neg h15, if_neg h16]
  rfl

lemma placeAttempts_no_candidates {board : Board} {word : List Char}
    {alignment : Alignment} {bs : BoardSize} {g : Nat → Nat}
    (h : generatePossiblePlacements word alignment bs = []) (fuel k : Nat) :
    placeAttempts board word alignment bs g (fuel + 1) k =
      (⟨false, some "No valid placements found", none⟩, board, k) := by
  simp [placeAttempts, h]

lemma processWords_log_words (alignment : Alignment) (bs : BoardSize)
    (g : Nat → Nat) :
    ∀ (words : List (List Char)) (board : Board) (k : Nat),
      ((processWords alignment bs g board words k).log).map Prod.fst = words := by
  intro words
  induction words with
  | nil => intro board k; rfl
  | cons w rest ih => intro board k; simp [processWords, ih]

/- ### Claim theorems -/

/-- C3: with `lines.block = true` and a word whose length lies in
`{3, 5, 7, 11, 13}` (in particular, length 5), `generateWordsOnBoard`
throws a configuration error; the error is raised by `validateInputs`,
which runs before any board is created and before any placement is
attempted. -/
theorem C3_block_invalid_length_fails (bs : BoardSizeJs)
    (words : List (List Char)) (al : Alignment) (g : Nat → Nat)
    (w : List Char) (hb : al.lines.block = true) (hw : w ∈ words)
    (hl : w.length ∈ invalidLengths) :
    ∃ e, generateWordsOnBoard bs words al g = Except.error e := by
  have hval : ∃ e, validateInputs bs words al = Except.error e := by
    unfold validateInputs
    split
    · exact ⟨_, rfl⟩
    · rw [if_pos ⟨hb, List.find?_isSome.mpr ⟨w, hw, decide_eq_true hl⟩⟩]
      exact ⟨_, rfl⟩
  obtain ⟨e, he⟩ := hval
  refine ⟨e, ?_⟩
  unfold generateWordsOnBoard
  rw [he]

/-- Witness for C3 at a concrete input: a length-5 word under block
mode. -/
theorem C3_block_invalid_length_fails_witness :
    ((⟨⟨false, false, false, false, false, true⟩, .forward⟩ : Alignment)).lines.block
        = true ∧
      ['H', 'E', 'L', 'L', 'O'] ∈ [['H', 'E', 'L', 'L', 'O']] ∧
      (['H', 'E', 'L', 'L', 'O'] : List Char).length ∈ invalidLengths ∧
      ∃ e, generateWordsOnBoard ⟨some 8, some 8⟩ [['H', 'E', 'L', 'L', 'O']]
        ⟨⟨false, false, false, false, false, true⟩, .forward⟩ (fun _ => 0) =
          Except.error e :=
  ⟨rfl, by simp, by decide,
    C3_block_invalid_length_fails ⟨some 8, some 8⟩ [['H', 'E', 'L', 'L', 'O']]
      ⟨⟨false, false, false, false, false, true⟩, .forward⟩ (fun _ => 0)
      ['H', 'E', 'L', 'L', 'O'] rfl (by simp) (by decide)⟩

/-- C6 counterexample: `boardSize.width = 0` is a number that is not
positive, yet the call is not rejected — it completes and returns a
board (`isOk`).  The source's `validateInputs` checks only
`typeof === 'number'`, never positivity. -/
theorem C6_counterexample_zero_width_accepted :
    (generateWordsOnBoard ⟨some 0, some 5⟩ [['A']]
      ⟨⟨true, false, false, false, false, false⟩, .forward⟩ (fun _ => 0)).isOk
      = true := by
  decide

/-- C6 amended: `generateWordsOnBoard` fails fast with a descriptive
error whenever `boardSize.width` or `boardSize.height` is missing or
non-numeric; a zero or negative numeric width or height is NOT
rejected by validation. -/
theorem C6_nonnumeric_dimension_rejected (bs : BoardSizeJs)
    (words : List (List Char)) (al : Alignment) (g : Nat → Nat)
    (h : bs.width = none ∨ bs.height = none) :
    ∃ e, generateWordsOnBoard bs words al g = Except.error e := by
  have hval : ∃ e, validateInputs bs words al = Except.error e := by
    unfold validateInputs
    rw [if_pos h]
    exact ⟨_, rfl⟩
  obtain ⟨e, he⟩ := hval
  refine ⟨e, ?_⟩
  unfold generateWordsOnBoard
  rw [he]

/-- Witness for the amended C6 at a concrete input. -/
theorem C6_nonnumeric_dimension_rejected_witness :
    ((⟨none, some 3⟩ : BoardSizeJs).width = none ∨
      (⟨none, some 3⟩ : BoardSizeJs).height = none) ∧
      ∃ e, generateWordsOnBoard ⟨none, some 3⟩ [['A']]
        ⟨⟨true, false, false, false, false, false⟩, .forward⟩ (fun _ => 0) =
          Except.error e :=
  ⟨Or.inl rfl,
    C6_nonnumeric_dimension_rejected ⟨none, some 3⟩ [['A']]
      ⟨⟨true, false, false, false, false, false⟩, .forward⟩ (fun _ => 0)
      (Or.inl rfl)⟩

/-- C8: once validation passes, `generateWordsOnBoard` returns a board
computed by folding the placement engine over every word of the input
list in order — per-word failures never abort the run; the ghost log
contains exactly one entry per input word, in input order. -/
theorem C8_failure_containment (bs : BoardSizeJs) (words : List (List Char))
    (al : Alignment) (g : Nat → Nat)
    (h : validateInputs bs words al = Except.ok ()) :
    ∃ W H, bs.width = some W ∧ bs.height = some H ∧
      generateWordsOnBoard bs words al g =
        Except.ok ((processWords al ⟨W, H⟩ g createEmptyBoard words 0).board) ∧
      ((processWords al ⟨W, H⟩ g createEmptyBoard words 0).log).map Prod.fst
        = words := by
  have hnum : ¬(bs.width = none ∨ bs.height = none) := by
    intro hcon
    unfold validateInputs at h
    rw [if_pos hcon] at h
    exact Except.noConfusion h
  push_neg at hnum
  obtain ⟨hw, hh⟩ := hnum
  obtain ⟨W, hW⟩ := Option.ne_none_iff_exists'.mp hw
  obtain ⟨H, hH⟩ := Option.ne_none_iff_exists'.mp hh
  refine ⟨W, H, hW, hH, ?_, processWords_log_words al ⟨W, H⟩ g words
    createEmptyBoard 0⟩
  unfold generateWordsOnBoard
  rw [h, hW, hH]

/-- Witness for C8 at a concrete input. -/
theorem C8_failure_containment_witness :
    validateInputs ⟨some 3, some 3⟩ [['A', 'B']]
        ⟨⟨true, false, false, false, false, false⟩, .forward⟩ = Except.ok () ∧
      ∃ W H, (⟨some 3, some 3⟩ : BoardSizeJs).width = some W ∧
        (⟨some 3, some 3⟩ : BoardSizeJs).height = some H ∧
        generateWordsOnBoard ⟨some 3, some 3⟩ [['A', 'B']]
          ⟨⟨true, false, false, false, false, false⟩, .forward⟩ (fun _ => 0) =
          Except.ok ((processWords
            ⟨⟨true, false, false, false, false, false⟩, .forward⟩ ⟨W, H⟩
            (fun _ => 0) createEmptyBoard [['A', 'B']] 0).board) ∧
        ((processWords ⟨⟨true, false, false, false, false, false⟩, .forward⟩
          ⟨W, H⟩ (fun _ => 0) createEmptyBoard [['A', 'B']] 0).log).map Prod.fst
          = [['A', 'B']] :=
  ⟨rfl,
    C8_failure_containment ⟨some 3, some 3⟩ [['A', 'B']]
      ⟨⟨true, false, false, false, false, false⟩, .forward⟩ (fun _ => 0) rfl⟩

/-- C9: for a word of length ≥ 2 on a board with positive dimensions,
the bendsDiagonal enumerator emits, for every
`(startRow, startCol, bendPoint)` loop combination, exactly one
placement tagged `bend-diagonal-down-up` whose position list is the
single start cell — never a two-leg diagonal path. -/
theorem C9_bend_diagonal_degenerate (w : List Char) (bs : BoardSize)
    (hL : 2 ≤ w.length) (hw : 0 < bs.width) (hh : 0 < bs.height) :
    generateBendDiagonalPlacements w bs =
      (natRange bs.height).flatMap fun startRow =>
        (natRange bs.width).flatMap fun startCol =>
          (List.range' 1 (w.length - 1)).map fun _ =>
            { type := "bend-diagonal-down-up"
              positions := [⟨startRow, startCol⟩] } := by
  unfold generateBendDiagonalPlacements
  refine List.flatMap_congr fun startRow hr => ?_
  refine List.flatMap_congr fun startCol hc => ?_
  rw [mem_natRange] at hr hc
  have hvb : isValidDiagonalBend startRow startCol 1 w.length bs "down-up"
      = true := by
    simp [isValidDiagonalBend, hr, hc]
  have hvp : isValidPosition ⟨startRow, startCol⟩ bs = true := by
    simp [isValidPosition, hr, hc]
  rw [← flatMap_const_singleton (List.range' 1 (w.length - 1))]
  refine List.flatMap_congr fun bendPoint hb => ?_
  simp [isValidDiagonalBend, hr, hc, generateDiagonalBendPositions,
    isValidPosition]

/-- Witness for C9 at a concrete input. -/
theorem C9_bend_diagonal_degenerate_witness :
    (2 ≤ (['A', 'B'] : List Char).length ∧ (0 : Int) < 2 ∧ (0 : Int) < 1) ∧
      generateBendDiagonalPlacements ['A', 'B'] ⟨2, 1⟩ =
        (natRange (1 : Int)).flatMap fun startRow =>
          (natRange (2 : Int)).flatMap fun startCol =>
            (List.range' 1 ((['A', 'B'] : List Char).length - 1)).map fun _ =>
              { type := "bend-diagonal-down-up"
                positions := [⟨startRow, startCol⟩] } :=
  ⟨⟨by decide, by decide, by decide⟩,
    C9_bend_diagonal_degenerate ['A', 'B'] ⟨2, 1⟩ (by decide) (by decide)
      (by decide)⟩

/-- C10: the word lengths with at least one block dimension are exactly
`{4, 6, 8, 9, 10, 12, 14, 15, 16}`, while block-mode validation rejects
only `{3, 5, 7, 11, 13}`; a word whose length is outside both sets
passes validation, and with `block` as the only enabled shape its
placement fails per word with reason `'No valid placements found'`
(leaving the board and the random counter untouched) instead of raising
a configuration error. -/
theorem C10_block_validation_gap :
    (∀ L, getValidBlockDimensions L ≠ [] ↔ L ∈ blockLengths) ∧
    ∀ (w : List Char) (board : Board) (W H : Int) (al : Alignment)
      (g : Nat → Nat) (k : Nat),
      al.lines = ⟨false, false, false, false, false, true⟩ →
      w.length ∉ invalidLengths → w.length ∉ blockLengths →
      validateInputs ⟨some W, some H⟩ [w] al = Except.ok () ∧
      placeWordOnBoard board w al ⟨W, H⟩ g k =
        (⟨false, some "No valid placements found", none⟩, board, k) := by
  constructor
  · intro L
    constructor
    · intro hne
      by_contra hmem
      exact hne (getValidBlockDimensions_eq_nil hmem)
    · intro hmem
      simp only [blockLengths, List.mem_cons, List.not_mem_nil, or_false]
        at hmem
      rcases hmem with h | h | h | h | h | h | h | h | h <;> subst h <;> decide
  · intro w board W H al g k hlines hinv hblk
    have hfind : (List.find? (fun w => decide (w.length ∈ invalidLengths)) [w])
        = none :=
      List.find?_eq_none.mpr (by simpa using fun h => hinv (by simpa using h))
    constructor
    · unfold validateInputs
      rw [if_neg (by simp), if_neg (by simp [hfind])]
    · have hplac : generatePossiblePlacements w al ⟨W, H⟩ = [] := by
        simp [generatePossiblePlacements, hlines, generateBlockPlacements,
          getValidBlockDimensions_eq_nil hblk]
      exact placeAttempts_no_candidates hplac 99 k

/-- Witness for C10 at a concrete input: a length-2 word. -/
theorem C10_block_validation_gap_witness :
    ((⟨⟨false, false, false, false, false, true⟩, .forward⟩ : Alignment)).lines
        = ⟨false, false, false, false, false, true⟩ ∧
      (['A', 'B'] : List Char).length ∉ invalidLengths ∧
      (['A', 'B'] : List Char).length ∉ blockLengths ∧
      validateInputs ⟨some 4, some 4⟩ [['A', 'B']]
        ⟨⟨false, false, false, false, false, true⟩, .forward⟩ = Except.ok () ∧
      placeWordOnBoard createEmptyBoard ['A', 'B']
        ⟨⟨false, false, false, false, false, true⟩, .forward⟩ ⟨4, 4⟩
        (fun _ => 0) 0 =
        (⟨false, some "No valid placements found", none⟩, createEmptyBoard, 0) :=
  ⟨rfl, by decide, by decide,
    C10_block_validation_gap.2 ['A', 'B'] createEmptyBoard 4 4
      ⟨⟨false, false, false, false, false, true⟩, .forward⟩ (fun _ => 0) 0 rfl
      (by decide) (by decide)⟩

/-- Modelled from the spec: the retry loop of §4.4 with the candidate
list computed once and reused across attempts (the source regenerates
it each attempt); otherwise identical to `placeAttempts`. -/
def placeAttemptsOnce (board : Board) (word : List Char)
    (alignment : Alignment) (bs : BoardSize) (g : Nat → Nat)
    (placements : List Placement) :
    Nat → Nat → PlaceResult × Board × Nat
  | 0, k =>
      (⟨false, some "Could not find valid placement after maximum attempts",
        none⟩, board, k)
  | fuel + 1, k =>
      if placements.length = 0 then
        (⟨false, some "No valid placements found", none⟩, board, k)
      else
        let placement := placements.getD (g k % placements.length) default
        let chk := canPlaceWord board word placement alignment.direction g (k + 1)
        if chk.1 then
          let wr := placeWord board word placement alignment.direction g chk.2
          (⟨true, none, some placement⟩, wr.1, wr.2)
        else
          placeAttemptsOnce board word alignment bs g placements fuel chk.2

/-- Modelled from the spec: `placeWordOnBoard` with the candidate list
computed once, up front. -/
def placeWordOnBoardOnce (board : Board) (word : List Char)
    (alignment : Alignment) (bs : BoardSize) (g : Nat → Nat) (k : Nat) :
    PlaceResult × Board × Nat :=
  placeAttemptsOnce board word alignment bs g
    (generatePossiblePlacements word alignment bs) 100 k

lemma placeAttempts_eq_once (board : Board) (word : List Char)
    (alignment : Alignment) (bs : BoardSize) (g : Nat → Nat) :
    ∀ (fuel k : Nat),
      placeAttempts board word alignment bs g fuel k =
        placeAttemptsOnce board word alignment bs g
          (generatePossiblePlacements word alignment bs) fuel k := by
  intro fuel
  induction fuel with
  | zero => intro k; rfl
  | succ n ih => intro k; simp only [placeAttempts, placeAttemptsOnce, ih]

/-- C5: the candidate list is a pure function of the word's length, the
board size and the shape flags — two words of equal length get
identical lists, and the list never reads the board or the attempt
number — so the source's regenerate-per-attempt loop is observably
equal to computing the list once and reusing it across all attempts. -/
theorem C5_candidate_list_pure_and_reusable :
    (∀ (w1 w2 : List Char) (al : Alignment) (bs : BoardSize),
      w1.length = w2.length →
      generatePossiblePlacements w1 al bs = generatePossiblePlacements w2 al bs)
    ∧
    ∀ (board : Board) (w : List Char) (al : Alignment) (bs : BoardSize)
      (g : Nat → Nat) (k : Nat),
      placeWordOnBoard board w al bs g k = placeWordOnBoardOnce board w al bs g k
    := by
  constructor
  · intro w1 w2 al bs h
    simp only [generatePossiblePlacements, generateHorizontalPlacements,
      generateVerticalPlacements, generateDiagonalPlacements,
      generateBendStraightPlacements, generateBendDiagonalPlacements,
      generateBlockPlacements, hvPositions, vhPositions, h]
  · intro board w al bs g k
    exact placeAttempts_eq_once board w al bs g 100 k

/-- Witness for C5 at concrete inputs: two distinct words of equal
length and one concrete engine call. -/
theorem C5_candidate_list_pure_and_reusable_witness :
    ((['A', 'B'] : List Char).length = (['C', 'D'] : List Char).length ∧
      generatePossiblePlacements ['A', 'B']
          ⟨⟨true, true, true, true, true, false⟩, .forward⟩ ⟨3, 3⟩ =
        generatePossiblePlacements ['C', 'D']
          ⟨⟨true, true, true, true, true, false⟩, .forward⟩ ⟨3, 3⟩) ∧
      placeWordOnBoard createEmptyBoard ['A', 'B']
          ⟨⟨true, false, false, false, false, false⟩, .forward⟩ ⟨3, 3⟩
          (fun _ => 0) 0 =
        placeWordOnBoardOnce createEmptyBoard ['A', 'B']
          ⟨⟨true, false, false, false, false, false⟩, .forward⟩ ⟨3, 3⟩
          (fun _ => 0) 0 :=
  ⟨⟨rfl, C5_candidate_list_pure_and_reusable.1 ['A', 'B'] ['C', 'D']
      ⟨⟨true, true, true, true, true, false⟩, .forward⟩ ⟨3, 3⟩ rfl⟩,
    C5_candidate_list_pure_and_reusable.2 createEmptyBoard ['A', 'B']
      ⟨⟨true, false, false, false, false, false⟩, .forward⟩ ⟨3, 3⟩
      (fun _ => 0) 0⟩

/- ### In-bounds lemmas, per shape -/

lemma horizontal_inBounds {w : List Char} {bs : BoardSize} :
    ∀ p ∈ generateHorizontalPlacements w bs, ∀ q ∈ p.positions,
      (q.row : Int) < bs.height ∧ (q.col : Int) < bs.width := by
  intro p hp q hq
  simp only [generateHorizontalPlacements, List.mem_flatMap, List.mem_map,
    mem_natRange, List.mem_range] at hp
  obtain ⟨row, hrow, col, hcol, rfl⟩ := hp
  simp only [List.mem_map, List.mem_range] at hq
  obtain ⟨i, hi, rfl⟩ := hq
  constructor <;> simp <;> omega

lemma vertical_inBounds {w : List Char} {bs : BoardSize} :
    ∀ p ∈ generateVerticalPlacements w bs, ∀ q ∈ p.positions,
      (q.row : Int) < bs.height ∧ (q.col : Int) < bs.width := by
  intro p hp q hq
  simp only [generateVerticalPlacements, List.mem_flatMap, List.mem_map,
    mem_natRange, List.mem_range] at hp
  obtain ⟨row, hrow, col, hcol, rfl⟩ := hp
  simp only [List.mem_map, List.mem_range] at hq
  obtain ⟨i, hi, rfl⟩ := hq
  constructor <;> simp <;> omega

lemma diagonal_inBounds {w : List Char} {bs : BoardSize} :
    ∀ p ∈ generateDiagonalPlacements w bs, ∀ q ∈ p.positions,
      (q.row : Int) < bs.height ∧ (q.col : Int) < bs.width := by
  intro p hp q hq
  simp only [generateDiagonalPlacements, List.mem_append, List.mem_flatMap,
    List.mem_map, List.mem_range, List.mem_range'_1] at hp
  rcases hp with ⟨row, hrow, col, hcol, rfl⟩ | ⟨row, hrow, col, hcol, rfl⟩ <;>
    · simp only [List.mem_map, List.mem_range] at hq
      obtain ⟨i, hi, rfl⟩ := hq
      constructor <;> simp <;> omega

lemma bendStraight_inBounds {w : List Char} {bs : BoardSize} :
    ∀ p ∈ generateBendStraightPlacements w bs, ∀ q ∈ p.positions,
      (q.row : Int) < bs.height ∧ (q.col : Int) < bs.width := by
  intro p hp q hq
  simp only [generateBendStraightPlacements, List.mem_flatMap, mem_natRange,
    List.mem_append, List.mem_ite_nil_right, List.mem_singleton,
    List.mem_range'_1] at hp
  obtain ⟨sr, hsr, sc, hsc, b, hb, hcase⟩ := hp
  rcases hcase with ⟨⟨hc1, hc2⟩, rfl⟩ | ⟨⟨hc1, hc2⟩, rfl⟩ <;>
    · simp only [hvPositions, vhPositions, List.mem_append, List.mem_map,
        List.mem_range, List.mem_range'_1] at hq
      rcases hq with ⟨i, hi, rfl⟩ | ⟨i, hi, rfl⟩ <;>
        constructor <;> simp <;> omega

lemma bendDiagonal_inBounds {w : List Char} {bs : BoardSize} :
    ∀ p ∈ generateBendDiagonalPlacements w bs, ∀ q ∈ p.positions,
      (q.row : Int) < bs.height ∧ (q.col : Int) < bs.width := by
  intro p hp q hq
  simp only [generateBendDiagonalPlacements, List.mem_flatMap, mem_natRange,
    List.mem_range'_1, isValidDiagonalBend, generateDiagonalBendPositions,
    isValidPosition, List.all_cons, List.all_nil, Bool.and_true,
    decide_eq_true_eq, List.mem_ite_nil_right, List.mem_singleton] at hp
  obtain ⟨sr, hsr, sc, hsc, b, hb, -, -, rfl⟩ := hp
  simp only [List.mem_singleton] at hq
  subst hq
  exact ⟨hsr, hsc⟩

lemma block_inBounds {w : List Char} {bs : BoardSize} :
    ∀ p ∈ generateBlockPlacements w bs, ∀ q ∈ p.positions,
      (q.row : Int) < bs.height ∧ (q.col : Int) < bs.width := by
  intro p hp q hq
  simp only [generateBlockPlacements, List.mem_flatMap, List.mem_map,
    List.mem_range] at hp
  obtain ⟨blk, hblk, sr, hsr, sc, hsc, rfl⟩ := hp
  have hq' := List.mem_of_mem_take hq
  simp only [generateBlockPositions, List.mem_flatMap, List.mem_map,
    List.mem_range] at hq'
  obtain ⟨r, hr, c, hc, rfl⟩ := hq'
  constructor <;> simp <;> omega

/-- C7: every position of every candidate placement lies strictly
inside the board, for every word of length ≥ 1 and every positive
board size — board indexing in `canPlaceWord` and `placeWord` never
goes out of bounds. -/
theorem C7_in_bounds_safety (w : List Char) (al : Alignment) (bs : BoardSize)
    (hL : 1 ≤ w.length) (hw : 0 < bs.width) (hh : 0 < bs.height) :
    ∀ p ∈ generatePossiblePlacements w al bs, ∀ q ∈ p.positions,
      (q.row : Int) < bs.height ∧ (q.col : Int) < bs.width := by
  intro p hp
  simp only [generatePossiblePlacements, List.mem_append,
    List.mem_ite_nil_right] at hp
  rcases hp with ((((⟨-, hp⟩ | ⟨-, hp⟩) | ⟨-, hp⟩) | ⟨-, hp⟩) | ⟨-, hp⟩) |
    ⟨-, hp⟩
  · exact horizontal_inBounds p hp
  · exact vertical_inBounds p hp
  · exact diagonal_inBounds p hp
  · exact bendStraight_inBounds p hp
  · exact bendDiagonal_inBounds p hp
  · exact block_inBounds p hp

/-- Witness for C7 at a concrete input. -/
theorem C7_in_bounds_safety_witness :
    (1 ≤ (['A', 'B'] : List Char).length ∧ (0 : Int) < 3 ∧ (0 : Int) < 3) ∧
      ∀ p ∈ generatePossiblePlacements ['A', 'B']
        ⟨⟨true, true, true, true, true, false⟩, .forward⟩ ⟨3, 3⟩,
        ∀ q ∈ p.positions, (q.row : Int) < 3 ∧ (q.col : Int) < 3 :=
  ⟨⟨by decide, by decide, by decide⟩,
    C7_in_bounds_safety ['A', 'B']
      ⟨⟨true, true, true, true, true, false⟩, .forward⟩ ⟨3, 3⟩ (by decide)
      (by decide) (by decide)⟩

/- ### Letter-invariant machinery (deterministic directions) -/

lemma getLetter_pure {word : List Char} {i : Nat} {dir : Direction}
    {g : Nat → Nat} {k : Nat} (hdir : dir = .forward ∨ dir = .backward) :
    getLetterForPosition word i dir g k = (letterForPure word i dir, k) := by
  rcases hdir with h | h <;> subst h <;> rfl

lemma canPlaceAux_compat {board : Board} {word : List Char} {dir : Direction}
    {g : Nat → Nat} (hdir : dir = .forward ∨ dir = .backward) :
    ∀ (positions : List Pos) (i k : Nat),
      (canPlaceAux board word dir g positions i k).1 = true →
      ∀ (j : Nat) (hj : j < positions.length),
        board (positions.get ⟨j, hj⟩).row (positions.get ⟨j, hj⟩).col = none ∨
        board (positions.get ⟨j, hj⟩).row (positions.get ⟨j, hj⟩).col =
          some (letterForPure word (i + j) dir) := by
  intro positions
  induction positions with
  | nil => intro i k _ j hj; exact absurd hj (by simp)
  | cons pos rest ih =>
    intro i k hok j hj
    rw [canPlaceAux, getLetter_pure hdir] at hok
    by_cases hcond : board pos.row pos.col ≠ none ∧
        board pos.row pos.col ≠ some (letterForPure word i dir)
    · rw [if_pos hcond] at hok
      exact absurd hok (by simp)
    · rw [if_neg hcond] at hok
      match j with
      | 0 =>
          push_neg at hcond
          by_cases hnone : board pos.row pos.col = none
          · exact Or.inl hnone
          · exact Or.inr (by simpa using hcond hnone)
      | j + 1 =>
          have := ih (i + 1) k hok j (by simpa using Nat.lt_of_succ_lt_succ hj)
          simpa [Nat.add_assoc, Nat.add_comm 1 j] using this

lemma placeWordAux_preserve {word : List Char} {dir : Direction}
    {g : Nat → Nat} (hdir : dir = .forward ∨ dir = .backward)
    (r c : Nat) (ch : Char) :
    ∀ (positions : List Pos) (board : Board) (i k : Nat),
      (∀ (j : Nat) (hj : j < positions.length),
        positions.get ⟨j, hj⟩ = ⟨r, c⟩ → letterForPure word (i + j) dir = ch) →
      board r c = some ch →
      (placeWordAux word dir g board positions i k).1 r c = some ch := by
  intro positions
  induction positions with
  | nil => intro board i k _ hc; exact hc
  | cons pos rest ih =>
    intro board i k hcompat hc
    rw [placeWordAux, getLetter_pure hdir]
    refine ih (writeCell board pos (letterForPure word i dir)) (i + 1) k
      (fun j hj hpos => ?_) ?_
    · have := hcompat (j + 1) (by simpa using Nat.succ_lt_succ hj) (by simpa using hpos)
      simpa [Nat.add_assoc, Nat.add_comm 1 j] using this
    · unfold writeCell
      by_cases heq : r = pos.row ∧ c = pos.col
      · rw [if_pos heq]
        have hp : pos = (⟨r, c⟩ : Pos) := by
          cases pos; simp_all
        have := hcompat 0 (by simp) (by simpa using hp)
        rw [Nat.add_zero] at this
        simp [this]
      · rw [if_neg heq]
        exact hc

lemma placeAttempts_preserve {word : List Char} {al : Alignment}
    {bs : BoardSize} {g : Nat → Nat}
    (hdir : al.direction = .forward ∨ al.direction = .backward)
    (r c : Nat) (ch : Char) :
    ∀ (fuel : Nat) (board : Board) (k : Nat), board r c = some ch →
      (placeAttempts board word al bs g fuel k).2.1 r c = some ch := by
  intro fuel
  induction fuel with
  | zero => intro board k hc; exact hc
  | succ n ih =>
    intro board k hc
    simp only [placeAttempts]
    split
    · exact hc
    · split
      · rename_i hok
        refine placeWordAux_preserve hdir r c ch _ board 0 _ (fun j hj hpos => ?_)
          hc
        have hcompat := canPlaceAux_compat hdir _ 0 (k + 1) hok j hj
        rw [hpos] at hcompat
        rcases hcompat with hnone | hsome
        · rw [hc] at hnone; exact absurd hnone (by simp)
        · rw [hc] at hsome
          simpa [Nat.zero_add] using (Option.some.inj hsome).symm
      · exact ih board _ hc

lemma processWords_preserve {al : Alignment} {bs : BoardSize} {g : Nat → Nat}
    (hdir : al.direction = .forward ∨ al.direction = .backward)
    (r c : Nat) (ch : Char) :
    ∀ (words : List (List Char)) (board : Board) (k : Nat),
      board r c = some ch →
      (processWords al bs g board words k).board r c = some ch := by
  intro words
  induction words with
  | nil => intro board k hc; exact hc
  | cons w rest ih =>
    intro board k hc
    simp only [processWords]
    exact ih _ _ (placeAttempts_preserve hdir r c ch 100 board k hc)

/-- C1 amended: under the deterministic direction modes `forward` and
`backward`, once a board cell holds a letter it is never changed to a
different letter for the remainder of the run, and any collision check
of that cell against a different expected letter returns false.  Under
`forwardBackward` and `scatter` the letter is re-randomized on every
`getLetterForPosition` call, so the invariant fails (see the
counterexample). -/
theorem C1_letter_invariant_deterministic :
    (∀ (al : Alignment) (bs : BoardSize) (g : Nat → Nat) (board : Board)
      (words : List (List Char)) (k r c : Nat) (ch : Char),
      (al.direction = .forward ∨ al.direction = .backward) →
      board r c = some ch →
      (processWords al bs g board words k).board r c = some ch) ∧
    ∀ (board : Board) (word : List Char) (dir : Direction) (g : Nat → Nat)
      (k : Nat) (p : Placement) (j : Nat) (hj : j < p.positions.length)
      (ch : Char),
      (dir = .forward ∨ dir = .backward) →
      board (p.positions.get ⟨j, hj⟩).row (p.positions.get ⟨j, hj⟩).col =
        some ch →
      letterForPure word j dir ≠ ch →
      (canPlaceWord board word p dir g k).1 = false := by
  constructor
  · intro al bs g board words k r c ch hdir hc
    exact processWords_preserve hdir r c ch words board k hc
  · intro board word dir g k p j hj ch hdir hc hne
    have main : ∀ (positions : List Pos) (i k : Nat) (j : Nat)
        (hj : j < positions.length),
        board (positions.get ⟨j, hj⟩).row (positions.get ⟨j, hj⟩).col =
          some ch →
        letterForPure word (i + j) dir ≠ ch →
        (canPlaceAux board word dir g positions i k).1 = false := by
      intro positions
      induction positions with
      | nil => intro i k j hj; exact absurd hj (by simp)
      | cons pos rest ih =>
        intro i k j hj hcell hmis
        rw [canPlaceAux, getLetter_pure hdir]
        by_cases hcond : board pos.row pos.col ≠ none ∧
            board pos.row pos.col ≠ some (letterForPure word i dir)
        · rw [if_pos hcond]
        · rw [if_neg hcond]
          match j with
          | 0 =>
              exfalso
              push_neg at hcond
              have hne' : board pos.row pos.col ≠ none := by
                simp only [List.get] at hcell
                rw [hcell]; simp
              have := hcond hne'
              simp only [List.get] at hcell
              rw [hcell] at this
              rw [Nat.add_zero] at hmis
              exact hmis (Option.some.inj this).symm
          | j + 1 =>
              refine ih (i + 1) k j (by simpa using Nat.lt_of_succ_lt_succ hj)
                (by simpa using hcell) ?_
              simpa [Nat.add_assoc, Nat.add_comm 1 j] using hmis
    have := main p.positions 0 k j hj hc (by simpa using hne)
    exact this

/-- Witness for the amended C1 at concrete inputs. -/
theorem C1_letter_invariant_deterministic_witness :
    (((⟨⟨true, false, false, false, false, false⟩, .forward⟩ : Alignment)).direction
        = .forward ∨
      ((⟨⟨true, false, false, false, false, false⟩, .forward⟩ : Alignment)).direction
        = .backward) ∧
      writeCell createEmptyBoard ⟨0, 0⟩ 'A' 0 0 = some 'A' ∧
      (processWords ⟨⟨true, false, false, false, false, false⟩, .forward⟩
        ⟨2, 2⟩ (fun _ => 0) (writeCell createEmptyBoard ⟨0, 0⟩ 'A')
        [['B', 'C']] 0).board 0 0 = some 'A' ∧
      (canPlaceWord (writeCell createEmptyBoard ⟨0, 0⟩ 'A') ['B', 'C']
        ⟨"horizontal", [⟨0, 0⟩, ⟨0, 1⟩], none⟩ .forward (fun _ => 0) 0).1
        = false :=
  ⟨Or.inl rfl, rfl,
    C1_letter_invariant_deterministic.1
      ⟨⟨true, false, false, false, false, false⟩, .forward⟩ ⟨2, 2⟩ (fun _ => 0)
      (writeCell createEmptyBoard ⟨0, 0⟩ 'A') [['B', 'C']] 0 0 0 'A'
      (Or.inl rfl) rfl,
    C1_letter_invariant_deterministic.2 (writeCell createEmptyBoard ⟨0, 0⟩ 'A')
      ['B', 'C'] .forward (fun _ => 0) 0
      ⟨"horizontal", [⟨0, 0⟩, ⟨0, 1⟩], none⟩ 0 (by decide) 'A' (Or.inl rfl)
      rfl (by decide)⟩

/-- C1 counterexample: with direction `forwardBackward`, a run of the
engine writes `'A'` into cell `(0, 0)` while placing the first word and
then rewrites the same cell to `'B'` while placing the second word —
the invariant does not hold for every direction mode.  The oracle draws
forward at every coin except the one used by `placeWord` for the second
word's first position. -/
theorem C1_counterexample_forwardBackward_overwrites :
    (placeWordOnBoard createEmptyBoard ['A', 'B']
        ⟨⟨true, false, false, false, false, false⟩, .forwardBackward⟩ ⟨2, 1⟩
        (fun k => if k = 8 then 1 else 0) 0).2.1 0 0 = some 'A' ∧
      (processWords
        ⟨⟨true, false, false, false, false, false⟩, .forwardBackward⟩ ⟨2, 1⟩
        (fun k => if k = 8 then 1 else 0)
        ((placeWordOnBoard createEmptyBoard ['A', 'B']
          ⟨⟨true, false, false, false, false, false⟩, .forwardBackward⟩ ⟨2, 1⟩
          (fun k => if k = 8 then 1 else 0) 0).2.1)
        [['A', 'B']]
        ((placeWordOnBoard createEmptyBoard ['A', 'B']
          ⟨⟨true, false, false, false, false, false⟩, .forwardBackward⟩ ⟨2, 1⟩
          (fun k => if k = 8 then 1 else 0) 0).2.2)).board 0 0 = some 'B' ∧
      (generateWordsOnBoard ⟨some 2, some 1⟩ [['A', 'B'], ['A', 'B']]
        ⟨⟨true, false, false, false, false, false⟩, .forwardBackward⟩
        (fun k => if k = 8 then 1 else 0)).toOption.map (fun b => b 0 0)
        = some (some 'B') ∧
      'A' ≠ 'B' := by
  refine ⟨by decide, by decide, by decide, by decide⟩

/- ### Distinctness and length of enumerator positions -/

lemma horizontal_positions_nodup {w : List Char} {bs : BoardSize} :
    ∀ p ∈ generateHorizontalPlacements w bs,
      p.positions.Nodup ∧ p.positions.length ≤ w.length := by
  intro p hp
  simp only [generateHorizontalPlacements, List.mem_flatMap, List.mem_map,
    mem_natRange, List.mem_range] at hp
  obtain ⟨row, hrow, col, hcol, rfl⟩ := hp
  refine ⟨List.Nodup.map ?_ (List.nodup_range _), by simp⟩
  intro a b h
  simp only [Pos.mk.injEq] at h
  omega

lemma vertical_positions_nodup {w : List Char} {bs : BoardSize} :
    ∀ p ∈ generateVerticalPlacements w bs,
      p.positions.Nodup ∧ p.positions.length ≤ w.length := by
  intro p hp
  simp only [generateVerticalPlacements, List.mem_flatMap, List.mem_map,
    mem_natRange, List.mem_range] at hp
  obtain ⟨row, hrow, col, hcol, rfl⟩ := hp
  refine ⟨List.Nodup.map ?_ (List.nodup_range _), by simp⟩
  intro a b h
  simp only [Pos.mk.injEq] at h
  omega

lemma diagonal_positions_nodup {w : List Char} {bs : BoardSize} :
    ∀ p ∈ generateDiagonalPlacements w bs,
      p.positions.Nodup ∧ p.positions.length ≤ w.length := by
  intro p hp
  simp only [generateDiagonalPlacements, List.mem_append, List.mem_flatMap,
    List.mem_map, List.mem_range, List.mem_range'_1] at hp
  rcases hp with ⟨row, hrow, col, hcol, rfl⟩ | ⟨row, hrow, col, hcol, rfl⟩ <;>
    · refine ⟨List.Nodup.map ?_ (List.nodup_range _), by simp⟩
      intro a b h
      simp only [Pos.mk.injEq] at h
      omega

lemma bendStraight_positions_nodup {w : List Char} {bs : BoardSize} :
    ∀ p ∈ generateBendStraightPlacements w bs,
      p.positions.Nodup ∧ p.positions.length ≤ w.length := by
  intro p hp
  simp only [generateBendStraightPlacements, List.mem_flatMap, mem_natRange,
    List.mem_append, List.mem_ite_nil_right, List.mem_singleton,
    List.mem_range'_1] at hp
  obtain ⟨sr, hsr, sc, hsc, b, hb, hcase⟩ := hp
  rcases hcase with ⟨-, rfl⟩ | ⟨-, rfl⟩ <;>
    · constructor
      · refine List.Nodup.append ?_ ?_ ?_
        · refine List.Nodup.map ?_ (List.nodup_range _)
          intro a b' h
          simp only [Pos.mk.injEq] at h
          omega
        · refine List.Nodup.map_on ?_ (List.nodup_range' _ _)
          intro x hx y hy h
          simp only [List.mem_range'_1] at hx hy
          simp only [Pos.mk.injEq] at h
          omega
        · intro q hqA hqB
          simp only [List.mem_map, List.mem_range, List.mem_range'_1] at hqA hqB
          obtain ⟨i, hi, rfl⟩ := hqA
          obtain ⟨i', hi', h⟩ := hqB
          simp only [Pos.mk.injEq] at h
          omega
      · simp only [hvPositions, vhPositions, List.length_append,
          List.length_map, List.length_range, List.length_range']
        omega

lemma bendDiagonal_positions_nodup {w : List Char} {bs : BoardSize} :
    ∀ p ∈ generateBendDiagonalPlacements w bs,
      p.positions.Nodup ∧ p.positions.length ≤ w.length := by
  intro p hp
  simp only [generateBendDiagonalPlacements, List.mem_flatMap, mem_natRange,
    List.mem_range'_1, isValidDiagonalBend, generateDiagonalBendPositions,
    isValidPosition, List.all_cons, List.all_nil, Bool.and_true,
    decide_eq_true_eq, List.mem_ite_nil_right, List.mem_singleton] at hp
  obtain ⟨sr, hsr, sc, hsc, b, hb, -, -, rfl⟩ := hp
  simp only [List.nodup_cons, List.not_mem_nil, not_false_iff,
    List.nodup_nil, and_true, true_and, List.length_cons, List.length_nil]
  omega

lemma block_positions_nodup {w : List Char} {bs : BoardSize} :
    ∀ p ∈ generateBlockPlacements w bs,
      p.positions.Nodup ∧ p.positions.length ≤ w.length := by
  intro p hp
  simp only [generateBlockPlacements, List.mem_flatMap, List.mem_map,
    List.mem_range] at hp
  obtain ⟨blk, hblk, sr, hsr, sc, hsc, rfl⟩ := hp
  constructor
  · refine List.Nodup.sublist (List.take_sublist _ _) ?_
    rw [List.nodup_flatMap]
    constructor
    · intro r hr
      refine List.Nodup.map ?_ (List.nodup_range _)
      intro a b h
      simp only [Pos.mk.injEq] at h
      omega
    · refine List.Pairwise.imp ?_ (List.pairwise_lt_range _)
      intro r r' hrr q hq hq'
      simp only [Function.onFun, List.mem_map, List.mem_range] at hq hq'
      obtain ⟨cq, hcq, rfl⟩ := hq
      obtain ⟨cq', hcq', h⟩ := hq'
      simp only [Pos.mk.injEq] at h
      omega
  · simp only [generateBlockPositions]
    simp [List.length_take]

lemma placements_positions_nodup {w : List Char} {al : Alignment}
    {bs : BoardSize} :
    ∀ p ∈ generatePossiblePlacements w al bs,
      p.positions.Nodup ∧ p.positions.length ≤ w.length := by
  intro p hp
  simp only [generatePossiblePlacements, List.mem_append,
    List.mem_ite_nil_right] at hp
  rcases hp with ((((⟨-, hp⟩ | ⟨-, hp⟩) | ⟨-, hp⟩) | ⟨-, hp⟩) | ⟨-, hp⟩) |
    ⟨-, hp⟩
  · exact horizontal_positions_nodup p hp
  · exact vertical_positions_nodup p hp
  · exact diagonal_positions_nodup p hp
  · exact bendStraight_positions_nodup p hp
  · exact bendDiagonal_positions_nodup p hp
  · exact block_positions_nodup p hp

/- ### Read-back of a committed placement -/

lemma placeWordAux_frame {word : List Char} {dir : Direction} {g : Nat → Nat} :
    ∀ (positions : List Pos) (board : Board) (i k : Nat) (r c : Nat),
      (∀ q ∈ positions, q ≠ (⟨r, c⟩ : Pos)) →
      (placeWordAux word dir g board positions i k).1 r c = board r c := by
  intro positions
  induction positions with
  | nil => intro board i k r c _; rfl
  | cons pos rest ih =>
    intro board i k r c hnot
    rw [placeWordAux]
    rw [ih _ _ _ _ _ (fun q hq => hnot q (List.mem_cons_of_mem _ hq))]
    unfold writeCell
    rw [if_neg]
    intro ⟨h1, h2⟩
    exact hnot pos (List.mem_cons_self _ _) (by cases pos; simp_all)

lemma placeWordAux_readback {word : List Char} {dir : Direction} {g : Nat → Nat}
    (hdir : dir = .forward ∨ dir = .backward) :
    ∀ (positions : List Pos), positions.Nodup →
      ∀ (board : Board) (i k : Nat) (j : Nat) (hj : j < positions.length),
        (placeWordAux word dir g board positions i k).1
          (positions.get ⟨j, hj⟩).row (positions.get ⟨j, hj⟩).col =
          some (letterForPure word (i + j) dir) := by
  intro positions
  induction positions with
  | nil => intro _ board i k j hj; exact absurd hj (by simp)
  | cons pos rest ih =>
    intro hnd board i k j hj
    rw [List.nodup_cons] at hnd
    rw [placeWordAux, getLetter_pure hdir]
    match j with
    | 0 =>
        have hframe := @placeWordAux_frame word dir g
          rest (writeCell board pos (letterForPure word i dir)) (i + 1) k
          pos.row pos.col
          (fun q hq heq => hnd.1 (by
            have : q = pos := by cases pos; simpa using heq
            rw [← this]; exact hq))
        simp only [List.get]
        rw [hframe]
        unfold writeCell
        rw [if_pos ⟨rfl, rfl⟩, Nat.add_zero]
    | j + 1 =>
        have := ih hnd.2 (writeCell board pos (letterForPure word i dir))
          (i + 1) k j (by simpa using Nat.lt_of_succ_lt_succ hj)
        simpa [Nat.add_assoc, Nat.add_comm 1 j] using this

lemma placeAttempts_success {board : Board} {word : List Char} {al : Alignment}
    {bs : BoardSize} {g : Nat → Nat} :
    ∀ (fuel k : Nat) (p : Placement),
      ((placeAttempts board word al bs g fuel k).1).committed = some p →
      p ∈ generatePossiblePlacements word al bs ∧
      ∃ k', (placeAttempts board word al bs g fuel k).2.1 =
        (placeWord board word p al.direction g k').1 := by
  intro fuel
  induction fuel with
  | zero => intro k p h; exact absurd h (by simp [placeAttempts])
  | succ n ih =>
    intro k p h
    by_cases hlen : (generatePossiblePlacements word al bs).length = 0
    · rw [placeAttempts] at h
      rw [if_pos hlen] at h
      exact absurd h (by simp)
    · rw [placeAttempts] at h ⊢
      rw [if_neg hlen] at h ⊢
      by_cases hok : (canPlaceWord board word
          ((generatePossiblePlacements word al bs).getD
            (g k % (generatePossiblePlacements word al bs).length) default)
          al.direction g (k + 1)).1 = true
      · rw [if_pos hok] at h ⊢
        simp only at h
        obtain rfl := Option.some.inj h
        constructor
        · rw [List.getD_eq_getElem _ _
            (Nat.mod_lt _ (Nat.pos_of_ne_zero hlen))]
          exact List.getElem_mem _
        · exact ⟨_, rfl⟩
      · rw [if_neg hok] at h ⊢
        exact ih _ p h

lemma processWords_readback {al : Alignment} {bs : BoardSize} {g : Nat → Nat}
    (hdir : al.direction = .forward ∨ al.direction = .backward) :
    ∀ (words : List (List Char)) (board : Board) (k : Nat),
      ∀ entry ∈ (processWords al bs g board words k).log, ∀ p : Placement,
        entry.2.committed = some p →
        p ∈ generatePossiblePlacements entry.1 al bs ∧
        ∀ (j : Nat) (hj : j < p.positions.length),
          (processWords al bs g board words k).board
            (p.positions.get ⟨j, hj⟩).row (p.positions.get ⟨j, hj⟩).col =
            some (letterForPure entry.1 j al.direction) := by
  intro words
  induction words with
  | nil => intro board k entry he; exact absurd he (by simp [processWords])
  | cons w rest ih =>
    intro board k entry he p hc
    simp only [processWords] at he ⊢
    rcases List.mem_cons.mp he with heq | hmem
    · subst heq
      simp only [placeWordOnBoard] at hc ⊢
      obtain ⟨hmem, k', hboard⟩ := placeAttempts_success 100 k p hc
      refine ⟨hmem, fun j hj => ?_⟩
      refine processWords_preserve hdir _ _ _ rest _ _ ?_
      rw [hboard]
      have hnd := (placements_positions_nodup p hmem).1
      have := @placeWordAux_readback w al.direction g hdir p.positions hnd
        board 0 k' j hj
      simpa using this
    · exact ih _ _ entry hmem p hc

/-- The word as it should read along a committed placement's positions:
the input word under `forward`, its exact reverse under `backward`. -/
def expectedWord (w : List Char) (dir : Direction) : List Char :=
  match dir with
  | .backward => w.reverse
  | _ => w

lemma letterForPure_expectedWord {w : List Char} {dir : Direction}
    (hdir : dir = .forward ∨ dir = .backward) {j : Nat} (hj : j < w.length) :
    letterForPure w j dir = (expectedWord w dir).getD j '?' := by
  rcases hdir with rfl | rfl
  · rfl
  · simp only [letterForPure, expectedWord]
    rw [List.getD_eq_getElem _ _ (show w.length - 1 - j < w.length by omega),
      List.getD_eq_getElem _ _ (show j < w.reverse.length by simpa using hj),
      List.getElem_reverse]

/-- C2 amended: in any run with direction `forward` (resp. `backward`),
every successfully placed word, read at its committed placement's
positions in position order from the returned board, spells the input
word (resp. its exact reverse) truncated to the placement's position
count; in particular it spells the full word exactly whenever the
placement has one position per character, which holds for every shape
except the degenerate single-cell `bendsDiagonal` placements (see the
counterexample). -/
theorem C2_forward_backward_readback (al : Alignment) (bs : BoardSize)
    (g : Nat → Nat) (words : List (List Char))
    (entry : List Char × PlaceResult) (p : Placement)
    (hdir : al.direction = .forward ∨ al.direction = .backward)
    (he : entry ∈ (processWords al bs g createEmptyBoard words 0).log)
    (hc : entry.2.committed = some p) :
    (p.positions.map fun q =>
        (processWords al bs g createEmptyBoard words 0).board q.row q.col)
      = ((expectedWord entry.1 al.direction).map some).take p.positions.length
    ∧ (p.positions.length = entry.1.length →
      (p.positions.map fun q =>
        (processWords al bs g createEmptyBoard words 0).board q.row q.col)
        = (expectedWord entry.1 al.direction).map some) := by
  obtain ⟨hmem, hread⟩ := processWords_readback hdir words createEmptyBoard 0
    entry he p hc
  have hlen := (placements_positions_nodup p hmem).2
  have hexp_len : (expectedWord entry.1 al.direction).length = entry.1.length := by
    cases al.direction <;> simp [expectedWord]
  have hmain : (p.positions.map fun q =>
      (processWords al bs g createEmptyBoard words 0).board q.row q.col)
      = ((expectedWord entry.1 al.direction).map some).take
          p.positions.length := by
    refine List.ext_getElem ?_ ?_
    · simp only [List.length_map, List.length_take, hexp_len]
      omega
    · intro j h1 h2
      simp only [List.length_map] at h1
      rw [List.getElem_map, List.getElem_take, List.getElem_map]
      have hr := hread j h1
      rw [List.get_eq_getElem] at hr
      rw [hr]
      have hjw : j < entry.1.length := by omega
      rw [← List.getD_eq_getElem (expectedWord entry.1 al.direction) '?']
      exact congrArg some (letterForPure_expectedWord hdir hjw)
  refine ⟨hmain, fun hn => ?_⟩
  have hlen2 : ((expectedWord entry.1 al.direction).map some).length
      = p.positions.length := by
    simp [hexp_len, hn]
  rw [hmain, ← hlen2, List.take_length]

/-- Witness for the amended C2 at concrete inputs: the word `"AB"`
placed horizontally forward on a 2×1 board. -/
theorem C2_forward_backward_readback_witness :
    (((⟨⟨true, false, false, false, false, false⟩, .forward⟩ : Alignment)).direction
        = .forward ∨
      ((⟨⟨true, false, false, false, false, false⟩, .forward⟩ : Alignment)).direction
        = .backward) ∧
      ((['A', 'B'], (⟨true, none,
          some ⟨"horizontal", [⟨0, 0⟩, ⟨0, 1⟩], none⟩⟩ : PlaceResult)) ∈
        (processWords ⟨⟨true, false, false, false, false, false⟩, .forward⟩
          ⟨2, 1⟩ (fun _ => 0) createEmptyBoard [['A', 'B']] 0).log) ∧
      ((⟨"horizontal", [⟨0, 0⟩, ⟨0, 1⟩], none⟩ : Placement).positions.map
          fun q => (processWords
            ⟨⟨true, false, false, false, false, false⟩, .forward⟩ ⟨2, 1⟩
            (fun _ => 0) createEmptyBoard [['A', 'B']] 0).board q.row q.col)
        = ((expectedWord ['A', 'B'] .forward).map some).take 2 :=
  ⟨Or.inl rfl, by decide,
    (C2_forward_backward_readback
      ⟨⟨true, false, false, false, false, false⟩, .forward⟩ ⟨2, 1⟩
      (fun _ => 0) [['A', 'B']]
      (['A', 'B'], ⟨true, none, some ⟨"horizontal", [⟨0, 0⟩, ⟨0, 1⟩], none⟩⟩)
      ⟨"horizontal", [⟨0, 0⟩, ⟨0, 1⟩], none⟩ (Or.inl rfl) (by decide)
      (by decide)).1⟩

/-- C2 counterexample: with `bendsDiagonal` enabled, direction
`forward`, the word `"AB"` is successfully placed on a degenerate
single-cell placement, and reading the returned board at its placement
positions in position order yields `"A"`, not the input word `"AB"` —
so the claim as stated (exact reproduction for every successfully
placed word) fails. -/
theorem C2_counterexample_bend_diagonal_truncates :
    (processWords ⟨⟨false, false, false, false, true, false⟩, .forward⟩ ⟨1, 1⟩
        (fun _ => 0) createEmptyBoard [['A', 'B']] 0).log
      = [(['A', 'B'], ⟨true, none,
          some ⟨"bend-diagonal-down-up", [⟨0, 0⟩], none⟩⟩)] ∧
      (([⟨0, 0⟩] : List Pos).map fun q =>
        (processWords ⟨⟨false, false, false, false, true, false⟩, .forward⟩
          ⟨1, 1⟩ (fun _ => 0) createEmptyBoard [['A', 'B']] 0).board q.row
          q.col) = [some 'A'] ∧
      [some 'A'] ≠ (['A', 'B'] : List Char).map some := by
  refine ⟨by decide, by decide, by decide⟩

/- ### Bend-straight counting machinery -/

/-- The horizontal-then-vertical bend placement emitted for one
`(startRow, startCol, bendPoint)` combination. -/
def hvPlacement (r c b L : Nat) : Placement :=
  { type := "bend-straight-hv", positions := hvPositions r c b L }

/-- The vertical-then-horizontal bend placement emitted for one
`(startRow, startCol, bendPoint)` combination. -/
def vhPlacement (r c b L : Nat) : Placement :=
  { type := "bend-straight-vh", positions := vhPositions r c b L }

lemma hvPlacement_def (r c b L : Nat) :
    hvPlacement r c b L =
      { type := "bend-straight-hv", positions := hvPositions r c b L } := rfl

lemma vhPlacement_def (r c b L : Nat) :
    vhPlacement r c b L =
      { type := "bend-straight-vh", positions := vhPositions r c b L } := rfl

lemma sum_map_indicator (l : List Nat) (hl : l.Nodup) (x n : Nat) :
    (l.map fun a => if a = x then n else 0).sum = if x ∈ l then n else 0 := by
  induction l with
  | nil => simp
  | cons a t ih =>
    rw [List.nodup_cons] at hl
    simp only [List.map_cons, List.sum_cons, ih hl.2, List.mem_cons]
    by_cases hx : a = x
    · subst hx
      simp [hl.1]
    · have hx' : ¬x = a := fun h => hx h.symm
      simp [hx, hx']

lemma count_ite_singleton {α : Type} [DecidableEq α] (p : Prop) [Decidable p]
    (x y : α) :
    List.count x (if p then [y] else []) = if p ∧ y = x then 1 else 0 := by
  by_cases hp : p
  · rw [if_pos hp]
    by_cases hyx : y = x <;> simp [hp, hyx, List.count_cons]
  · simp [hp]

lemma hvPositions_getElemZero (r c b L : Nat) (hb : 1 ≤ b) :
    (hvPositions r c b L)[0]? = some (⟨r, c⟩ : Pos) := by
  unfold hvPositions
  rw [List.getElem?_append_left (by simpa using hb),
    List.getElem?_map, List.getElem?_range (by omega)]
  simp

lemma vhPositions_getElemZero (r c b L : Nat) (hb : 1 ≤ b) :
    (vhPositions r c b L)[0]? = some (⟨r, c⟩ : Pos) := by
  unfold vhPositions
  rw [List.getElem?_append_left (by simpa using hb),
    List.getElem?_map, List.getElem?_range (by omega)]
  simp

lemma hvPositions_countP_row (r c b L : Nat) :
    (hvPositions r c b L).countP (fun q => decide (q.row = r)) = b := by
  unfold hvPositions
  rw [List.countP_append, List.countP_map, List.countP_map]
  have h1 : List.countP
      ((fun q : Pos => decide (q.row = r)) ∘ fun i => (⟨r, c + i⟩ : Pos))
      (List.range b) = b := by
    rw [List.countP_eq_length.mpr (by intro a _; simp)]
    simp
  have h2 : List.countP
      ((fun q : Pos => decide (q.row = r)) ∘ fun i =>
        (⟨r + (i - b + 1), c + b - 1⟩ : Pos))
      (List.range' b (L - b)) = 0 := by
    rw [List.countP_eq_zero.mpr (by intro a _; simp)]
  rw [h1, h2]
  omega


lemma vhPositions_countP_col (r c b L : Nat) :
    (vhPositions r c b L).countP (fun q => decide (q.col = c)) = b := by
  unfold vhPositions
  rw [List.countP_append, List.countP_map, List.countP_map]
  have h1 : List.countP
      ((fun q : Pos => decide (q.col = c)) ∘ fun i => (⟨r + i, c⟩ : Pos))
      (List.range b) = b := by
    rw [List.countP_eq_length.mpr (by intro a _; simp)]
    simp
  have h2 : List.countP
      ((fun q : Pos => decide (q.col = c)) ∘ fun i =>
        (⟨r + b - 1, c + (i - b + 1)⟩ : Pos))
      (List.range' b (L - b)) = 0 := by
    rw [List.countP_eq_zero.mpr (by intro a _; simp)]
  rw [h1, h2]
  omega

lemma hvPositions_inj {L r c b r' c' b' : Nat} (hb : 1 ≤ b) (hb' : 1 ≤ b')
    (h : hvPositions r' c' b' L = hvPositions r c b L) :
    r' = r ∧ c' = c ∧ b' = b := by
  have h0 := congrArg (fun l => l[0]?) h
  simp only [hvPositions_getElemZero r' c' b' L hb',
    hvPositions_getElemZero r c b L hb] at h0
  have hpos := Option.some.inj h0
  have hr : r' = r := congrArg Pos.row hpos
  have hc : c' = c := congrArg Pos.col hpos
  subst hr
  subst hc
  refine ⟨rfl, rfl, ?_⟩
  have hcp := congrArg (List.countP fun q : Pos => decide (q.row = r')) h
  rwa [hvPositions_countP_row, hvPositions_countP_row] at hcp

lemma vhPositions_inj {L r c b r' c' b' : Nat} (hb : 1 ≤ b) (hb' : 1 ≤ b')
    (h : vhPositions r' c' b' L = vhPositions r c b L) :
    r' = r ∧ c' = c ∧ b' = b := by
  have h0 := congrArg (fun l => l[0]?) h
  simp only [vhPositions_getElemZero r' c' b' L hb',
    vhPositions_getElemZero r c b L hb] at h0
  have hpos := Option.some.inj h0
  have hr : r' = r := congrArg Pos.row hpos
  have hc : c' = c := congrArg Pos.col hpos
  subst hr
  subst hc
  refine ⟨rfl, rfl, ?_⟩
  have hcp := congrArg (List.countP fun q : Pos => decide (q.col = c')) h
  rwa [vhPositions_countP_col, vhPositions_countP_col] at hcp

lemma count_pair_hv {bs : BoardSize} {L r c b : Nat} (hb1 : 1 ≤ b)
    (r' c' b' : Nat) (hb1' : 1 ≤ b') :
    List.count (hvPlacement r c b L)
      ((if ((c' + b' : Nat) : Int) < bs.width ∧
           ((r' + (L - b') : Nat) : Int) < bs.height
        then [hvPlacement r' c' b' L] else []) ++
       (if ((r' + b' : Nat) : Int) < bs.height ∧
           ((c' + (L - b') : Nat) : Int) < bs.width
        then [vhPlacement r' c' b' L] else []))
    = if b' = b then
        (if r' = r ∧ c' = c ∧ ((c + b : Nat) : Int) < bs.width ∧
            ((r + (L - b) : Nat) : Int) < bs.height then 1 else 0)
      else 0 := by
  rw [List.count_append, count_ite_singleton, count_ite_singleton]
  have hvh : ¬(vhPlacement r' c' b' L = hvPlacement r c b L) := by
    simp [vhPlacement, hvPlacement]
  have hz2 : ¬((((r' + b' : Nat) : Int) < bs.height ∧
      ((c' + (L - b') : Nat) : Int) < bs.width) ∧
      vhPlacement r' c' b' L = hvPlacement r c b L) := fun hh => hvh hh.2
  rw [if_neg hz2, Nat.add_zero]
  by_cases heq : r' = r ∧ c' = c ∧ b' = b
  · obtain ⟨rfl, rfl, rfl⟩ := heq
    simp
  · have hne : ¬(hvPlacement r' c' b' L = hvPlacement r c b L) := by
      intro hh
      exact heq (hvPositions_inj hb1 hb1' (congrArg Placement.positions hh))
    have hz1 : ¬((((c' + b' : Nat) : Int) < bs.width ∧
        ((r' + (L - b') : Nat) : Int) < bs.height) ∧
        hvPlacement r' c' b' L = hvPlacement r c b L) := fun hh => hne hh.2
    rw [if_neg hz1]
    by_cases hbb : b' = b
    · rw [if_pos hbb, if_neg (fun hh => heq ⟨hh.1, hh.2.1, hbb⟩)]
    · rw [if_neg hbb]

lemma count_pair_vh {bs : BoardSize} {L r c b : Nat} (hb1 : 1 ≤ b)
    (r' c' b' : Nat) (hb1' : 1 ≤ b') :
    List.count (vhPlacement r c b L)
      ((if ((c' + b' : Nat) : Int) < bs.width ∧
           ((r' + (L - b') : Nat) : Int) < bs.height
        then [hvPlacement r' c' b' L] else []) ++
       (if ((r' + b' : Nat) : Int) < bs.height ∧
           ((c' + (L - b') : Nat) : Int) < bs.width
        then [vhPlacement r' c' b' L] else []))
    = if b' = b then
        (if r' = r ∧ c' = c ∧ ((r + b : Nat) : Int) < bs.height ∧
            ((c + (L - b) : Nat) : Int) < bs.width then 1 else 0)
      else 0 := by
  rw [List.count_append, count_ite_singleton, count_ite_singleton]
  have hhv : ¬(hvPlacement r' c' b' L = vhPlacement r c b L) := by
    simp [vhPlacement, hvPlacement]
  have hz1 : ¬((((c' + b' : Nat) : Int) < bs.width ∧
      ((r' + (L - b') : Nat) : Int) < bs.height) ∧
      hvPlacement r' c' b' L = vhPlacement r c b L) := fun hh => hhv hh.2
  rw [if_neg hz1, Nat.zero_add]
  by_cases heq : r' = r ∧ c' = c ∧ b' = b
  · obtain ⟨rfl, rfl, rfl⟩ := heq
    simp
  · have hne : ¬(vhPlacement r' c' b' L = vhPlacement r c b L) := by
      intro hh
      exact heq (vhPositions_inj hb1 hb1' (congrArg Placement.positions hh))
    have hz2 : ¬((((r' + b' : Nat) : Int) < bs.height ∧
        ((c' + (L - b') : Nat) : Int) < bs.width) ∧
        vhPlacement r' c' b' L = vhPlacement r c b L) := fun hh => hne hh.2
    rw [if_neg hz2]
    by_cases hbb : b' = b
    · rw [if_pos hbb, if_neg (fun hh => heq ⟨hh.1, hh.2.1, hbb⟩)]
    · rw [if_neg hbb]

lemma count_bends_hv {bs : BoardSize} {L r c b : Nat} (hb1 : 1 ≤ b)
    (hb2 : b < L) (r' c' : Nat) :
    List.count (hvPlacement r c b L)
      ((List.range' 1 (L - 1)).flatMap fun b' =>
        (if ((c' + b' : Nat) : Int) < bs.width ∧
            ((r' + (L - b') : Nat) : Int) < bs.height
         then [hvPlacement r' c' b' L] else []) ++
        (if ((r' + b' : Nat) : Int) < bs.height ∧
            ((c' + (L - b') : Nat) : Int) < bs.width
         then [vhPlacement r' c' b' L] else []))
    = if c' = c then
        (if r' = r ∧ ((c + b : Nat) : Int) < bs.width ∧
            ((r + (L - b) : Nat) : Int) < bs.height then 1 else 0)
      else 0 := by
  rw [List.count_flatMap]
  simp only [Function.comp_def]
  rw [List.map_congr_left
    (fun b' (hb' : b' ∈ List.range' 1 (L - 1)) =>
      count_pair_hv hb1 r' c' b' (by
        rw [List.mem_range'_1] at hb'
        omega))]
  rw [sum_map_indicator _ (List.nodup_range' _ _) b _]
  rw [if_pos (by rw [List.mem_range'_1]; omega)]
  by_cases h1 : c' = c
  · subst h1
    by_cases h2 : r' = r
    · subst h2
      simp
    · rw [if_neg (fun hh => h2 hh.1), if_pos rfl, if_neg (fun hh => h2 hh.1)]
  · rw [if_neg (fun hh => h1 hh.2.1), if_neg h1]

lemma count_bends_vh {bs : BoardSize} {L r c b : Nat} (hb1 : 1 ≤ b)
    (hb2 : b < L) (r' c' : Nat) :
    List.count (vhPlacement r c b L)
      ((List.range' 1 (L - 1)).flatMap fun b' =>
        (if ((c' + b' : Nat) : Int) < bs.width ∧
            ((r' + (L - b') : Nat) : Int) < bs.height
         then [hvPlacement r' c' b' L] else []) ++
        (if ((r' + b' : Nat) : Int) < bs.height ∧
            ((c' + (L - b') : Nat) : Int) < bs.width
         then [vhPlacement r' c' b' L] else []))
    = if c' = c then
        (if r' = r ∧ ((r + b : Nat) : Int) < bs.height ∧
            ((c + (L - b) : Nat) : Int) < bs.width then 1 else 0)
      else 0 := by
  rw [List.count_flatMap]
  simp only [Function.comp_def]
  rw [List.map_congr_left
    (fun b' (hb' : b' ∈ List.range' 1 (L - 1)) =>
      count_pair_vh hb1 r' c' b' (by
        rw [List.mem_range'_1] at hb'
        omega))]
  rw [sum_map_indicator _ (List.nodup_range' _ _) b _]
  rw [if_pos (by rw [List.mem_range'_1]; omega)]
  by_cases h1 : c' = c
  · subst h1
    by_cases h2 : r' = r
    · subst h2
      simp
    · rw [if_neg (fun hh => h2 hh.1), if_pos rfl, if_neg (fun hh => h2 hh.1)]
  · rw [if_neg (fun hh => h1 hh.2.1), if_neg h1]

lemma count_cols_hv {bs : BoardSize} {L r c b : Nat} (hb1 : 1 ≤ b)
    (hb2 : b < L) (r' : Nat) :
    List.count (hvPlacement r c b L)
      ((natRange bs.width).flatMap fun c' =>
        (List.range' 1 (L - 1)).flatMap fun b' =>
        (if ((c' + b' : Nat) : Int) < bs.width ∧
            ((r' + (L - b') : Nat) : Int) < bs.height
         then [hvPlacement r' c' b' L] else []) ++
        (if ((r' + b' : Nat) : Int) < bs.height ∧
            ((c' + (L - b') : Nat) : Int) < bs.width
         then [vhPlacement r' c' b' L] else []))
    = if r' = r then
        (if ((c + b : Nat) : Int) < bs.width ∧
            ((r + (L - b) : Nat) : Int) < bs.height then 1 else 0)
      else 0 := by
  rw [List.count_flatMap]
  simp only [Function.comp_def]
  rw [List.map_congr_left
    (fun c' (hc' : c' ∈ natRange bs.width) => count_bends_hv hb1 hb2 r' c')]
  rw [sum_map_indicator (natRange bs.width) natRange_nodup c _]
  by_cases h2 : r' = r
  · subst h2
    by_cases h3 : ((c + b : Nat) : Int) < bs.width ∧
        ((r' + (L - b) : Nat) : Int) < bs.height
    · rw [if_pos (mem_natRange.mpr (by push_cast at h3 ⊢; omega))]
      simp [h3]
    · rw [if_pos rfl, if_neg h3]
      have hin : ¬(r' = r' ∧ ((c + b : Nat) : Int) < bs.width ∧
          ((r' + (L - b) : Nat) : Int) < bs.height) := fun hh => h3 hh.2
      rw [if_neg hin]
      simp
  · rw [if_neg h2]
    simp [h2]

lemma count_cols_vh {bs : BoardSize} {L r c b : Nat} (hb1 : 1 ≤ b)
    (hb2 : b < L) (r' : Nat) :
    List.count (vhPlacement r c b L)
      ((natRange bs.width).flatMap fun c' =>
        (List.range' 1 (L - 1)).flatMap fun b' =>
        (if ((c' + b' : Nat) : Int) < bs.width ∧
            ((r' + (L - b') : Nat) : Int) < bs.height
         then [hvPlacement r' c' b' L] else []) ++
        (if ((r' + b' : Nat) : Int) < bs.height ∧
            ((c' + (L - b') : Nat) : Int) < bs.width
         then [vhPlacement r' c' b' L] else []))
    = if r' = r then
        (if ((r + b : Nat) : Int) < bs.height ∧
            ((c + (L - b) : Nat) : Int) < bs.width then 1 else 0)
      else 0 := by
  rw [List.count_flatMap]
  simp only [Function.comp_def]
  rw [List.map_congr_left
    (fun c' (hc' : c' ∈ natRange bs.width) => count_bends_vh hb1 hb2 r' c')]
  rw [sum_map_indicator (natRange bs.width) natRange_nodup c _]
  by_cases h2 : r' = r
  · subst h2
    by_cases h3 : ((r' + b : Nat) : Int) < bs.height ∧
        ((c + (L - b) : Nat) : Int) < bs.width
    · rw [if_pos (mem_natRange.mpr (by push_cast at h3 ⊢; omega))]
      simp [h3]
    · rw [if_pos rfl, if_neg h3]
      have hin : ¬(r' = r' ∧ ((r' + b : Nat) : Int) < bs.height ∧
          ((c + (L - b) : Nat) : Int) < bs.width) := fun hh => h3 hh.2
      rw [if_neg hin]
      simp
  · rw [if_neg h2]
    simp [h2]

/-- C4 amended: a `(startRow, startCol, bendPoint)` combination with
`bendPoint ∈ [1, wordLength)` yields exactly one placement of an
orientation precisely when the source's bound check for that
orientation passes — `startCol + bendPoint < width` and
`startRow + (length − bendPoint) < height` for horizontal-then-vertical
(resp. the symmetric check for vertical-then-horizontal).  The check
demands one spare column (resp. row) beyond the cells the bend
actually occupies, so it is strictly stronger than "all positions lie
on the board": fitting combinations are skipped when the bend column
(resp. row) touches the board edge (see the counterexample). -/
theorem C4_bend_straight_bound_check (w : List Char) (bs : BoardSize)
    (r c b : Nat) (hb1 : 1 ≤ b) (hb2 : b < w.length) :
    ((generateBendStraightPlacements w bs).count (hvPlacement r c b w.length)
      = if ((c + b : Nat) : Int) < bs.width ∧
          ((r + (w.length - b) : Nat) : Int) < bs.height then 1 else 0) ∧
    ((generateBendStraightPlacements w bs).count (vhPlacement r c b w.length)
      = if ((r + b : Nat) : Int) < bs.height ∧
          ((c + (w.length - b) : Nat) : Int) < bs.width then 1 else 0) := by
  constructor
  · rw [generateBendStraightPlacements, List.count_flatMap]
    simp only [Function.comp_def, ← hvPlacement_def, ← vhPlacement_def]
    rw [List.map_congr_left
      (fun r' (hr' : r' ∈ natRange bs.height) =>
        @count_cols_hv bs w.length r c b hb1 hb2 r')]
    rw [sum_map_indicator (natRange bs.height) natRange_nodup r _]
    by_cases h3 : ((c + b : Nat) : Int) < bs.width ∧
        ((r + (w.length - b) : Nat) : Int) < bs.height
    · rw [if_pos (mem_natRange.mpr (by push_cast at h3 ⊢; omega))]
    · rw [if_neg h3]
      simp [h3]
  · rw [generateBendStraightPlacements, List.count_flatMap]
    simp only [Function.comp_def, ← hvPlacement_def, ← vhPlacement_def]
    rw [List.map_congr_left
      (fun r' (hr' : r' ∈ natRange bs.height) =>
        @count_cols_vh bs w.length r c b hb1 hb2 r')]
    rw [sum_map_indicator (natRange bs.height) natRange_nodup r _]
    by_cases h3 : ((r + b : Nat) : Int) < bs.height ∧
        ((c + (w.length - b) : Nat) : Int) < bs.width
    · rw [if_pos (mem_natRange.mpr (by push_cast at h3 ⊢; omega))]
    · rw [if_neg h3]
      simp [h3]

/-- Witness for the amended C4 at concrete inputs: on a 3×3 board with
a length-2 word, the combination `(0, 0, 1)` passes both bound checks
and its two orientations each occur exactly once. -/
theorem C4_bend_straight_bound_check_witness :
    (1 ≤ 1 ∧ 1 < (['A', 'B'] : List Char).length) ∧
      ((generateBendStraightPlacements ['A', 'B'] ⟨3, 3⟩).count
          (hvPlacement 0 0 1 2) = if ((0 + 1 : Nat) : Int) < 3 ∧
            ((0 + (2 - 1) : Nat) : Int) < 3 then 1 else 0) ∧
      ((generateBendStraightPlacements ['A', 'B'] ⟨3, 3⟩).count
          (vhPlacement 0 0 1 2) = if ((0 + 1 : Nat) : Int) < 3 ∧
            ((0 + (2 - 1) : Nat) : Int) < 3 then 1 else 0) :=
  ⟨⟨by decide, by decide⟩,
    (C4_bend_straight_bound_check ['A', 'B'] ⟨3, 3⟩ 0 0 1 (by decide)
      (by decide)).1,
    (C4_bend_straight_bound_check ['A', 'B'] ⟨3, 3⟩ 0 0 1 (by decide)
      (by decide)).2⟩

/-- C4 counterexample: on a board of width 1 and height 2, the
combination `(startRow, startCol, bendPoint) = (0, 0, 1)` for a
length-2 word keeps every horizontal-then-vertical position on the
board, yet the enumerator emits no placement at all — the bound check
filters more than "all positions lie on the board". -/
theorem C4_counterexample_fitting_combo_skipped :
    generateBendStraightPlacements ['A', 'B'] ⟨1, 2⟩ = [] ∧
      (∀ q ∈ hvPositions 0 0 1 2, (q.row : Int) < 2 ∧ (q.col : Int) < 1) ∧
      (1 ≤ 1 ∧ 1 < (['A', 'B'] : List Char).length) := by
  refine ⟨by decide, by decide, by decide, by decide⟩

end WordSearch
